import Mathlib

/-!
Verification of the TextChunker chunk-navigation state machine.

The definitions below are a shallow embedding of the `TextChunker` class
shared (with minor variations) by `src/cli/xcli.cpp`, `src/cli/cli.cpp` and
`src/gui.cpp`.  The dedup variant (`xcli.cpp`) is the richest one and is the
one embedded in full: buffer text, chunk size, tail mode, inversion flag,
current position, total chunk count and the set of consumed chunk contents.
Strings are modelled as `List Char`, `std::string::substr(start, len)` as
`take len (drop start)`, and `size_t` arithmetic as `Nat` (the no-underflow
side conditions are proved where the code relies on them).
-/

namespace TextChunker

/-- `std::string::substr(start, len)` on a `List Char` buffer. -/
def substr (t : List Char) (start len : Nat) : List Char :=
  (t.drop start).take len

/-- State of the `TextChunker` class (xcli.cpp, lines 198-208).
`used_chunks` is the `std::set<std::string>` of consumed chunk contents. -/
structure Chunker where
  text : List Char
  chunk_size : Nat
  tail_mode : Bool
  inverted : Bool
  current_chunk : Nat
  total_chunks : Nat
  used_chunks : Finset (List Char)
deriving DecidableEq

/-- The effective direction test `tail_mode ^ inverted` used throughout the
code; `true` means reverse-anchored. -/
def effRev (s : Chunker) : Bool := Bool.xor s.tail_mode s.inverted

/-- `total_chunks = (text.length() + chunk_size - 1) / chunk_size`, forced to
at least 1 (xcli.cpp lines 211-212). -/
def computeTotalChunks (len cs : Nat) : Nat :=
  if (len + cs - 1) / cs = 0 then 1 else (len + cs - 1) / cs

/-- The two sequential clamps inside `recalculateChunks` (xcli.cpp lines
214-219): first pull `c` down to `tc`, then up to 1. -/
def recalcClamp (c tc : Nat) : Nat :=
  if (if c > tc then tc else c) < 1 then 1 else (if c > tc then tc else c)

/-- `TextChunker::recalculateChunks` (xcli.cpp lines 210-223): recompute
`total_chunks` and reclamp `current_chunk` (the temp-file write is I/O glue). -/
def recalculateChunks (s : Chunker) : Chunker :=
  { s with total_chunks := computeTotalChunks s.text.length s.chunk_size,
           current_chunk :=
             recalcClamp s.current_chunk (computeTotalChunks s.text.length s.chunk_size) }

/-- End offset of the chunk at `pos` (xcli.cpp lines 281-286): reverse-anchored
uses `text.length() - (total_chunks - pos) * chunk_size`, forward-anchored
uses `min(start + chunk_size, text.length())`. -/
def chunkEndPos (len cs tc : Nat) (rev : Bool) (pos : Nat) : Nat :=
  if rev then len - (tc - pos) * cs
  else min ((pos - 1) * cs + cs) len

/-- Start offset of the chunk at `pos` (xcli.cpp lines 281-286): reverse-anchored
uses `(end_pos > chunk_size) ? end_pos - chunk_size : 0`, forward-anchored
uses `(pos - 1) * chunk_size`. -/
def chunkStartPos (len cs tc : Nat) (rev : Bool) (pos : Nat) : Nat :=
  if rev then
    (if len - (tc - pos) * cs > cs then len - (tc - pos) * cs - cs else 0)
  else (pos - 1) * cs

/-- Start offset of the chunk at `pos` for the state `s`. -/
def chunkS (s : Chunker) (pos : Nat) : Nat :=
  chunkStartPos s.text.length s.chunk_size s.total_chunks (effRev s) pos

/-- End offset of the chunk at `pos` for the state `s`. -/
def chunkE (s : Chunker) (pos : Nat) : Nat :=
  chunkEndPos s.text.length s.chunk_size s.total_chunks (effRev s) pos

/-- `TextChunker::getChunkAtPosition` (xcli.cpp lines 274-290): empty outside
`[1, total_chunks]`, otherwise `text.substr(start_pos, end_pos - start_pos)`. -/
def getChunkAtPosition (s : Chunker) (pos : Nat) : List Char :=
  if pos < 1 ∨ s.total_chunks < pos then []
  else substr s.text (chunkS s pos) (chunkE s pos - chunkS s pos)

/-- `TextChunker::isChunkUsed` (xcli.cpp lines 240-242). -/
def isChunkUsed (s : Chunker) (chunk : List Char) : Bool :=
  chunk ∈ s.used_chunks

/-- `TextChunker::markChunkAsUsed` (xcli.cpp lines 244-246). -/
def markChunkAsUsed (s : Chunker) (chunk : List Char) : Chunker :=
  { s with used_chunks := insert chunk s.used_chunks }

/-- `TextChunker::hasUnusedChunks` (xcli.cpp lines 482-484). -/
def hasUnusedChunks (s : Chunker) : Bool :=
  decide (s.used_chunks.card < s.total_chunks)

/-- `TextChunker::isAtFinalChunk` (xcli.cpp lines 486-492). -/
def isAtFinalChunk (s : Chunker) : Bool :=
  if effRev s then s.current_chunk == 1 else s.current_chunk == s.total_chunks

/-- One scanning/navigation step in the direction of the next navigation move
(xcli.cpp lines 258-262 and 427-431): reverse-anchored decrements toward 1,
forward-anchored increments toward `total_chunks`, clamped. -/
def scanStep (s : Chunker) (cur : Nat) : Nat :=
  if effRev s then max 1 (cur - 1) else min s.total_chunks (cur + 1)

/-- The loop body of `TextChunker::findNextUnusedChunk` (xcli.cpp lines
248-272), made total with a fuel argument.  `some (some p)` models `return p`
for an unused position, `some none` models the `return -1` taken when the
stepped position equals the start position, and `none` means the loop has not
exited within `fuel` iterations. -/
def findNextUnusedChunkFuel (s : Chunker) (startc : Nat) : Nat → Nat → Option (Option Nat)
  | _, 0 => none
  | cur, fuel + 1 =>
    if isChunkUsed s (getChunkAtPosition s cur) = false then some (some cur)
    else
      let cur2 := scanStep s cur
      if cur2 = startc then some none
      else findNextUnusedChunkFuel s startc cur2 fuel

/-- `TextChunker::findNextUnusedChunk`: the scan starts at `current_chunk`,
which is also the wrap-detection anchor. -/
def findNextUnusedChunk (s : Chunker) (fuel : Nat) : Option (Option Nat) :=
  findNextUnusedChunkFuel s s.current_chunk s.current_chunk fuel

/-- The interactive commands dispatched by `TextChunker::processCommand`
(xcli.cpp lines 385-480).  `emptyCmd` is the empty input line, `appendCmd`
carries the text accumulated by `appendText`, `resize n` is `$n`, `goto n`
a bare integer. -/
inductive Command where
  | emptyCmd
  | appendCmd (extra : List Char)
  | recopy
  | usage
  | resetCmd
  | prevCmd
  | nextCmd
  | firstCmd
  | lastCmd
  | invertCmd
  | resize (n : Nat)
  | quitCmd
  | goto (n : Nat)
  | help
deriving DecidableEq

/-- The two sequential clamps at the end of `processCommand` (xcli.cpp lines
475-477): first pull `c` up to 1, then down to `tc`. -/
def clamp2 (c tc : Nat) : Nat :=
  if (if c < 1 then 1 else c) > tc then tc else (if c < 1 then 1 else c)

/-- The bounds check at the end of `processCommand` (xcli.cpp lines 475-477). -/
def clampPos (s : Chunker) : Chunker :=
  { s with current_chunk := clamp2 s.current_chunk s.total_chunks }

/-- `TextChunker::processCommand` (xcli.cpp lines 385-480).  Returns
`some (continue?, newState)`; `none` only when the dedup scan of the empty
command fails to exit within `fuel` iterations.  Branches that `return true`
early in the C++ (append, usage, reset, invalid resize, invalid goto, help)
skip the final bounds check; the others fall through to `clampPos`. -/
def processCommand (s : Chunker) (cmd : Command) (fuel : Nat) : Option (Bool × Chunker) :=
  match cmd with
  | .emptyCmd =>
    match findNextUnusedChunk s fuel with
    | none => none
    | some (some p) => some (true, clampPos { s with current_chunk := p })
    | some none => some (true, clampPos { s with current_chunk := scanStep s s.current_chunk })
  | .appendCmd extra =>
    if extra = [] then some (true, s)
    else some (true, recalculateChunks { s with text := s.text ++ extra })
  | .recopy => some (true, clampPos s)
  | .usage => some (true, s)
  | .resetCmd => some (true, { s with used_chunks := ∅ })
  | .prevCmd =>
    some (true, clampPos { s with current_chunk :=
      (if effRev s then min s.total_chunks (s.current_chunk + 1)
       else max 1 (s.current_chunk - 1)) })
  | .nextCmd => some (true, clampPos { s with current_chunk := scanStep s s.current_chunk })
  | .firstCmd =>
    some (true, clampPos { s with current_chunk := if effRev s then s.total_chunks else 1 })
  | .lastCmd =>
    some (true, clampPos { s with current_chunk := if effRev s then 1 else s.total_chunks })
  | .invertCmd =>
    let s2 : Chunker :=
      { s with inverted := !s.inverted, current_chunk := s.total_chunks - s.current_chunk + 1 }
    some (true, clampPos s2)
  | .resize n =>
    if 0 < n ∧ n ≤ s.text.length then
      some (true, clampPos (recalculateChunks { s with chunk_size := n, used_chunks := ∅ }))
    else some (true, s)
  | .quitCmd => some (false, s)
  | .goto n =>
    if 1 ≤ n ∧ n ≤ s.total_chunks then some (true, clampPos { s with current_chunk := n })
    else some (true, s)
  | .help => some (true, s)

/-- `TextChunker::loadText` (xcli.cpp lines 303-330) with the loaded content
passed as a parameter (the file/clipboard read is I/O glue).  Rejects empty
text; otherwise recomputes chunks and, in tail mode, starts at the last
chunk.  The C++ constructor sets `current_chunk = 1` and leaves
`total_chunks` uninitialised; it is overwritten by `recalculateChunks`
before any read, so the model initialises it to 1. -/
def loadText (tail : Bool) (cs : Nat) (content : List Char) : Option Chunker :=
  if content = [] then none
  else
    let s := recalculateChunks
      { text := content, chunk_size := cs, tail_mode := tail, inverted := false,
        current_chunk := 1, total_chunks := 1, used_chunks := ∅ }
    some (if tail then { s with current_chunk := s.total_chunks } else s)

/-- A user session: fold `processCommand` over a list of commands (each with
its scan fuel). -/
def applyCommands (s : Chunker) : List (Command × Nat) → Option Chunker
  | [] => some s
  | (cmd, fuel) :: rest =>
    match processCommand s cmd fuel with
    | none => none
    | some (_, s') => applyCommands s' rest

/-- `TextChunker::getCurrentChunk` (xcli.cpp lines 348-350). -/
def getCurrentChunk (s : Chunker) : List Char :=
  getChunkAtPosition s s.current_chunk

/-- `TextChunker::copyToClipboard` (xcli.cpp lines 352-373): an unused current
chunk is marked consumed; a consumed one triggers the dedup scan, whose found
position becomes current and that chunk is marked; when the scan reports
all-used the state is left unchanged (the clipboard write itself is I/O
glue).  `none` when the scan fails to exit within `fuel` iterations. -/
def copyToClipboard (s : Chunker) (fuel : Nat) : Option Chunker :=
  let chunk := getCurrentChunk s
  if chunk = [] then some s
  else if isChunkUsed s chunk = false then some (markChunkAsUsed s chunk)
  else
    match findNextUnusedChunk s fuel with
    | none => none
    | some (some p) =>
      let s2 := { s with current_chunk := p }
      some (markChunkAsUsed s2 (getCurrentChunk s2))
    | some none => some s

/-- One iteration of `TextChunker::run` (xcli.cpp lines 498-527): the
automatic copy at the top of the loop followed by processing one command. -/
def runStep (s : Chunker) (cmd : Command) (fuel : Nat) : Option Chunker :=
  match copyToClipboard s fuel with
  | none => none
  | some s1 =>
    match processCommand s1 cmd fuel with
    | none => none
    | some (_, s2) => some s2

/-- The state invariant maintained after a successful load: positive chunk
size, non-empty buffer, `total_chunks` as computed by `recalculateChunks`,
and `current_chunk` in `[1, total_chunks]`. -/
def Inv (s : Chunker) : Prop :=
  0 < s.chunk_size ∧ 0 < s.text.length ∧
  s.total_chunks = computeTotalChunks s.text.length s.chunk_size ∧
  1 ≤ s.current_chunk ∧ s.current_chunk ≤ s.total_chunks

/-- Position of the current chunk in the traversal order of the given
direction: the first chunk encountered is ordinal 1 (`F` jumps to
`total_chunks` when reverse-anchored, to 1 otherwise; xcli.cpp line 433). -/
def traversalOrdinal (rev : Bool) (tc pos : Nat) : Nat :=
  if rev then tc - pos + 1 else pos

/-! ### Arithmetic facts about `computeTotalChunks` and the chunk boundaries -/

lemma computeTotalChunks_pos (len cs : Nat) : 1 ≤ computeTotalChunks len cs := by
  unfold computeTotalChunks
  generalize (len + cs - 1) / cs = d
  split <;> omega

lemma computeTotalChunks_eq_max (len cs : Nat) :
    computeTotalChunks len cs = max 1 ((len + cs - 1) / cs) := by
  unfold computeTotalChunks
  generalize (len + cs - 1) / cs = d
  split <;> omega

lemma computeTotalChunks_eq_div (len cs : Nat) (hl : 0 < len) (hc : 0 < cs) :
    computeTotalChunks len cs = (len + cs - 1) / cs := by
  have h : 0 < (len + cs - 1) / cs :=
    Nat.div_pos (by omega) hc
  unfold computeTotalChunks
  rw [if_neg (Nat.pos_iff_ne_zero.mp h)]

lemma len_le_tc_mul (len cs tc : Nat) (hl : 0 < len) (hc : 0 < cs)
    (htc : tc = computeTotalChunks len cs) : len ≤ tc * cs := by
  rw [htc, computeTotalChunks_eq_div len cs hl hc]
  have hdm := Nat.div_add_mod (len + cs - 1) cs
  have hm : (len + cs - 1) % cs < cs := Nat.mod_lt _ hc
  rw [Nat.mul_comm]
  omega

lemma pred_mul_lt (len cs tc : Nat) (hl : 0 < len) (hc : 0 < cs)
    (htc : tc = computeTotalChunks len cs) : (tc - 1) * cs < len := by
  have h1 : tc * cs ≤ len + cs - 1 := by
    rw [htc, computeTotalChunks_eq_div len cs hl hc]
    exact Nat.div_mul_le_self _ _
  have h2 : (tc - 1) * cs = tc * cs - cs := by
    rw [Nat.sub_mul, Nat.one_mul]
  omega

lemma sub_mul_lt (len cs tc pos : Nat) (hl : 0 < len) (hc : 0 < cs)
    (htc : tc = computeTotalChunks len cs) (hp : 1 ≤ pos) :
    (tc - pos) * cs < len := by
  have h1 : (tc - pos) * cs ≤ (tc - 1) * cs :=
    Nat.mul_le_mul_right cs (by omega)
  exact lt_of_le_of_lt h1 (pred_mul_lt len cs tc hl hc htc)

/-! Reverse-anchored boundary facts. -/

lemma rev_end_def (len cs tc pos : Nat) :
    chunkEndPos len cs tc true pos = len - (tc - pos) * cs := by
  simp [chunkEndPos]

lemma rev_start_eq (len cs tc pos : Nat) :
    chunkStartPos len cs tc true pos = chunkEndPos len cs tc true pos - cs := by
  simp only [chunkStartPos, chunkEndPos, if_true]
  split <;> omega

lemma rev_end_le_len (len cs tc pos : Nat) :
    chunkEndPos len cs tc true pos ≤ len := by
  rw [rev_end_def]; omega

lemma rev_start_le_end (len cs tc pos : Nat) :
    chunkStartPos len cs tc true pos ≤ chunkEndPos len cs tc true pos := by
  rw [rev_start_eq]; omega

lemma rev_end_pos (len cs tc pos : Nat) (hl : 0 < len) (hc : 0 < cs)
    (htc : tc = computeTotalChunks len cs) (hp : 1 ≤ pos) :
    1 ≤ chunkEndPos len cs tc true pos := by
  have := sub_mul_lt len cs tc pos hl hc htc hp
  rw [rev_end_def]; omega

lemma rev_end_one_le_cs (len cs tc : Nat) (hl : 0 < len) (hc : 0 < cs)
    (htc : tc = computeTotalChunks len cs) :
    chunkEndPos len cs tc true 1 ≤ cs := by
  have h1 := len_le_tc_mul len cs tc hl hc htc
  have h2 : 1 ≤ tc := htc ▸ computeTotalChunks_pos len cs
  have h3 : tc * cs = (tc - 1) * cs + cs := by
    rw [Nat.sub_mul, Nat.one_mul]
    have : cs ≤ tc * cs := by
      calc cs = 1 * cs := (Nat.one_mul cs).symm
      _ ≤ tc * cs := Nat.mul_le_mul_right cs h2
    omega
  rw [rev_end_def]; omega

lemma rev_start_one (len cs tc : Nat) (hl : 0 < len) (hc : 0 < cs)
    (htc : tc = computeTotalChunks len cs) :
    chunkStartPos len cs tc true 1 = 0 := by
  have := rev_end_one_le_cs len cs tc hl hc htc
  rw [rev_start_eq]; omega

lemma rev_end_tc (len cs tc : Nat) :
    chunkEndPos len cs tc true tc = len := by
  rw [rev_end_def, Nat.sub_self, Nat.zero_mul, Nat.sub_zero]

lemma rev_cont (len cs tc pos : Nat) (hl : 0 < len) (hc : 0 < cs)
    (htc : tc = computeTotalChunks len cs) (hp1 : 1 ≤ pos) (hp2 : pos < tc) :
    chunkEndPos len cs tc true pos = chunkStartPos len cs tc true (pos + 1) := by
  have hB : (tc - pos) * cs = (tc - (pos + 1)) * cs + cs := by
    have h : tc - pos = (tc - (pos + 1)) + 1 := by omega
    rw [h, Nat.succ_mul]
  have hlt := sub_mul_lt len cs tc pos hl hc htc hp1
  rw [rev_start_eq, rev_end_def, rev_end_def]
  omega

lemma rev_full_len (len cs tc pos : Nat) (hl : 0 < len) (hc : 0 < cs)
    (htc : tc = computeTotalChunks len cs) (hp1 : 2 ≤ pos) (hp2 : pos ≤ tc) :
    chunkEndPos len cs tc true pos - chunkStartPos len cs tc true pos = cs := by
  have hcs : cs ≤ chunkEndPos len cs tc true pos := by
    have h1 : (tc - (pos - 1)) * cs < len :=
      sub_mul_lt len cs tc (pos - 1) hl hc htc (by omega)
    have h2 : (tc - (pos - 1)) * cs = (tc - pos) * cs + cs := by
      have h : tc - (pos - 1) = (tc - pos) + 1 := by omega
      rw [h, Nat.succ_mul]
    rw [rev_end_def]
    omega
  rw [rev_start_eq]
  omega

/-! Forward-anchored boundary facts. -/

lemma fwd_end_def (len cs tc pos : Nat) :
    chunkEndPos len cs tc false pos = min ((pos - 1) * cs + cs) len := by
  simp [chunkEndPos]

lemma fwd_start_def (len cs tc pos : Nat) :
    chunkStartPos len cs tc false pos = (pos - 1) * cs := by
  simp [chunkStartPos]

lemma fwd_start_one (len cs tc : Nat) :
    chunkStartPos len cs tc false 1 = 0 := by
  simp [fwd_start_def]

lemma fwd_end_le_len (len cs tc pos : Nat) :
    chunkEndPos len cs tc false pos ≤ len := by
  rw [fwd_end_def]; omega

lemma fwd_start_le_end (len cs tc pos : Nat) (hl : 0 < len) (hc : 0 < cs)
    (htc : tc = computeTotalChunks len cs) (hp1 : 1 ≤ pos) (hp2 : pos ≤ tc) :
    chunkStartPos len cs tc false pos ≤ chunkEndPos len cs tc false pos := by
  have h1 : (pos - 1) * cs ≤ (tc - 1) * cs :=
    Nat.mul_le_mul_right cs (by omega)
  have h2 := pred_mul_lt len cs tc hl hc htc
  rw [fwd_start_def, fwd_end_def]
  omega

lemma fwd_end_tc (len cs tc : Nat) (hl : 0 < len) (hc : 0 < cs)
    (htc : tc = computeTotalChunks len cs) :
    chunkEndPos len cs tc false tc = len := by
  have h1 := len_le_tc_mul len cs tc hl hc htc
  have h2 : 1 ≤ tc := htc ▸ computeTotalChunks_pos len cs
  have h3 : (tc - 1) * cs + cs = tc * cs := by
    have h : tc = (tc - 1) + 1 := by omega
    calc (tc - 1) * cs + cs = ((tc - 1) + 1) * cs := (Nat.succ_mul _ _).symm
    _ = tc * cs := by rw [← h]
  rw [fwd_end_def]
  omega

lemma fwd_cont (len cs tc pos : Nat) (hl : 0 < len) (hc : 0 < cs)
    (htc : tc = computeTotalChunks len cs) (hp1 : 1 ≤ pos) (hp2 : pos < tc) :
    chunkEndPos len cs tc false pos = chunkStartPos len cs tc false (pos + 1) := by
  have h1 : (pos - 1) * cs + cs = pos * cs := by
    have h : pos = (pos - 1) + 1 := by omega
    calc (pos - 1) * cs + cs = ((pos - 1) + 1) * cs := (Nat.succ_mul _ _).symm
    _ = pos * cs := by rw [← h]
  have h2 : pos * cs ≤ (tc - 1) * cs := Nat.mul_le_mul_right cs (by omega)
  have h3 := pred_mul_lt len cs tc hl hc htc
  rw [fwd_end_def, fwd_start_def, Nat.add_sub_cancel]
  omega

/-! Direction-generic boundary facts. -/

lemma end_mono (len cs tc : Nat) (rev : Bool) (p q : Nat) (hpq : p ≤ q) :
    chunkEndPos len cs tc rev p ≤ chunkEndPos len cs tc rev q := by
  cases rev with
  | false =>
    rw [fwd_end_def, fwd_end_def]
    have : (p - 1) * cs ≤ (q - 1) * cs := Nat.mul_le_mul_right cs (by omega)
    omega
  | true =>
    rw [rev_end_def, rev_end_def]
    have : (tc - q) * cs ≤ (tc - p) * cs := Nat.mul_le_mul_right cs (by omega)
    omega

lemma start_le_end (len cs tc : Nat) (rev : Bool) (pos : Nat) (hl : 0 < len) (hc : 0 < cs)
    (htc : tc = computeTotalChunks len cs) (hp1 : 1 ≤ pos) (hp2 : pos ≤ tc) :
    chunkStartPos len cs tc rev pos ≤ chunkEndPos len cs tc rev pos := by
  cases rev with
  | false => exact fwd_start_le_end len cs tc pos hl hc htc hp1 hp2
  | true => exact rev_start_le_end len cs tc pos

lemma end_le_len (len cs tc : Nat) (rev : Bool) (pos : Nat) :
    chunkEndPos len cs tc rev pos ≤ len := by
  cases rev with
  | false => exact fwd_end_le_len len cs tc pos
  | true => exact rev_end_le_len len cs tc pos

lemma cont (len cs tc : Nat) (rev : Bool) (pos : Nat) (hl : 0 < len) (hc : 0 < cs)
    (htc : tc = computeTotalChunks len cs) (hp1 : 1 ≤ pos) (hp2 : pos < tc) :
    chunkEndPos len cs tc rev pos = chunkStartPos len cs tc rev (pos + 1) := by
  cases rev with
  | false => exact fwd_cont len cs tc pos hl hc htc hp1 hp2
  | true => exact rev_cont len cs tc pos hl hc htc hp1 hp2

lemma start_one (len cs tc : Nat) (rev : Bool) (hl : 0 < len) (hc : 0 < cs)
    (htc : tc = computeTotalChunks len cs) :
    chunkStartPos len cs tc rev 1 = 0 := by
  cases rev with
  | false => exact fwd_start_one len cs tc
  | true => exact rev_start_one len cs tc hl hc htc

lemma end_total (len cs tc : Nat) (rev : Bool) (hl : 0 < len) (hc : 0 < cs)
    (htc : tc = computeTotalChunks len cs) :
    chunkEndPos len cs tc rev tc = len := by
  cases rev with
  | false => exact fwd_end_tc len cs tc hl hc htc
  | true => exact rev_end_tc len cs tc

lemma no_overlap (len cs tc : Nat) (rev : Bool) (p q : Nat) (hl : 0 < len) (hc : 0 < cs)
    (htc : tc = computeTotalChunks len cs) (hp1 : 1 ≤ p) (hpq : p < q) (hq : q ≤ tc) :
    chunkEndPos len cs tc rev p ≤ chunkStartPos len cs tc rev q := by
  have hq1 : 1 ≤ q - 1 := by omega
  have hcontq : chunkEndPos len cs tc rev (q - 1) = chunkStartPos len cs tc rev q := by
    have h := cont len cs tc rev (q - 1) hl hc htc hq1 (by omega)
    have hq' : q - 1 + 1 = q := by omega
    rw [hq'] at h
    exact h
  calc chunkEndPos len cs tc rev p
      ≤ chunkEndPos len cs tc rev (q - 1) := end_mono len cs tc rev p (q - 1) (by omega)
    _ = chunkStartPos len cs tc rev q := hcontq

/-! ### Chunk contents -/

lemma substr_length (t : List Char) (start l : Nat) (h : start + l ≤ t.length) :
    (substr t start l).length = l := by
  simp only [substr, List.length_take, List.length_drop]
  omega

lemma getChunk_eq (s : Chunker) (pos : Nat) (hp1 : 1 ≤ pos) (hp2 : pos ≤ s.total_chunks) :
    getChunkAtPosition s pos = substr s.text (chunkS s pos) (chunkE s pos - chunkS s pos) := by
  unfold getChunkAtPosition
  rw [if_neg (by omega)]

lemma getChunk_length (s : Chunker) (pos : Nat) (hl : 0 < s.text.length)
    (hc : 0 < s.chunk_size)
    (htc : s.total_chunks = computeTotalChunks s.text.length s.chunk_size)
    (hp1 : 1 ≤ pos) (hp2 : pos ≤ s.total_chunks) :
    (getChunkAtPosition s pos).length = chunkE s pos - chunkS s pos := by
  rw [getChunk_eq s pos hp1 hp2]
  apply substr_length
  have h1 : chunkS s pos ≤ chunkE s pos :=
    start_le_end _ _ _ (effRev s) pos hl hc htc hp1 hp2
  have h2 : chunkE s pos ≤ s.text.length := end_le_len _ _ _ (effRev s) pos
  omega

/-- Telescoping: if the start of chunk 1 is 0, each chunk ends where the next
starts, and starts never exceed ends, then the chunk lengths up to `n` sum to
the end of chunk `n`. -/
lemma telescope_sum (e sf : Nat → Nat) (N : Nat) (hs1 : sf 1 = 0)
    (hcont : ∀ p, 1 ≤ p → p < N → e p = sf (p + 1))
    (hle : ∀ p, 1 ≤ p → p ≤ N → sf p ≤ e p) :
    ∀ n, 1 ≤ n → n ≤ N → (∑ p ∈ Finset.Icc 1 n, (e p - sf p)) = e n := by
  intro n
  induction n with
  | zero => omega
  | succ m ih =>
    intro h1 h2
    by_cases hm : m = 0
    · subst hm
      simp [hs1]
    · have hm1 : 1 ≤ m := by omega
      rw [Finset.sum_Icc_succ_top (by omega : 1 ≤ m + 1)]
      rw [ih hm1 (by omega)]
      have hc1 := hcont m hm1 (by omega)
      have hl1 := hle (m + 1) (by omega) h2
      omega

/-- Concatenation of `getChunkAtPosition 1 .. n` (the forward round-trip of
the spec). -/
def concatChunksUpTo (s : Chunker) : Nat → List Char
  | 0 => []
  | n + 1 => concatChunksUpTo s n ++ getChunkAtPosition s (n + 1)

lemma concat_take (s : Chunker) (hl : 0 < s.text.length) (hc : 0 < s.chunk_size)
    (htc : s.total_chunks = computeTotalChunks s.text.length s.chunk_size) :
    ∀ n, 1 ≤ n → n ≤ s.total_chunks →
      concatChunksUpTo s n = s.text.take (chunkE s n) := by
  intro n
  induction n with
  | zero => omega
  | succ m ih =>
    intro h1 h2
    by_cases hm : m = 0
    · subst hm
      show [] ++ getChunkAtPosition s 1 = _
      rw [List.nil_append, getChunk_eq s 1 (by omega) (by omega)]
      have hS : chunkS s 1 = 0 := start_one _ _ _ (effRev s) hl hc htc
      rw [hS]
      simp [substr]
    · have hm1 : 1 ≤ m := by omega
      show concatChunksUpTo s m ++ getChunkAtPosition s (m + 1) = _
      rw [ih hm1 (by omega), getChunk_eq s (m + 1) (by omega) h2]
      have hcm : chunkE s m = chunkS s (m + 1) :=
        cont _ _ _ (effRev s) m hl hc htc hm1 (by omega)
      have hmono : chunkE s m ≤ chunkE s (m + 1) :=
        end_mono _ _ _ (effRev s) m (m + 1) (by omega)
      unfold substr
      rw [← hcm, ← List.take_add]
      congr 1
      have h1' : chunkS s (m + 1) ≤ chunkE s (m + 1) :=
        start_le_end _ _ _ (effRev s) (m + 1) hl hc htc (by omega) h2
      omega

/-! ### The position invariant and its preservation -/

lemma clamp2_bounds (c tc : Nat) (h : 1 ≤ tc) :
    1 ≤ clamp2 c tc ∧ clamp2 c tc ≤ tc := by
  unfold clamp2
  split_ifs <;> omega

lemma clamp2_id (c tc : Nat) (h1 : 1 ≤ c) (h2 : c ≤ tc) : clamp2 c tc = c := by
  unfold clamp2
  split_ifs <;> omega

lemma recalcClamp_bounds (c tc : Nat) (h : 1 ≤ tc) :
    1 ≤ recalcClamp c tc ∧ recalcClamp c tc ≤ tc := by
  unfold recalcClamp
  split_ifs <;> omega

lemma clampPos_id (s : Chunker) (h1 : 1 ≤ s.current_chunk)
    (h2 : s.current_chunk ≤ s.total_chunks) : clampPos s = s := by
  show ({ s with current_chunk := clamp2 s.current_chunk s.total_chunks } : Chunker) = s
  rw [clamp2_id s.current_chunk s.total_chunks h1 h2]

lemma inv_clampPos (s : Chunker) (hc : 0 < s.chunk_size) (hl : 0 < s.text.length)
    (htc : s.total_chunks = computeTotalChunks s.text.length s.chunk_size)
    (h1 : 1 ≤ s.total_chunks) : Inv (clampPos s) := by
  obtain ⟨hb1, hb2⟩ := clamp2_bounds s.current_chunk s.total_chunks h1
  exact ⟨hc, hl, htc, hb1, hb2⟩

lemma inv_recalc (s : Chunker) (hc : 0 < s.chunk_size) (hl : 0 < s.text.length) :
    Inv (recalculateChunks s) := by
  have htcpos := computeTotalChunks_pos s.text.length s.chunk_size
  obtain ⟨hb1, hb2⟩ := recalcClamp_bounds s.current_chunk
    (computeTotalChunks s.text.length s.chunk_size) htcpos
  exact ⟨hc, hl, rfl, hb1, hb2⟩

lemma inv_clamp_update (s : Chunker) (p : Nat) (hInv : Inv s) :
    Inv (clampPos { s with current_chunk := p }) := by
  obtain ⟨hc, hl, htc, hp1, hp2⟩ := hInv
  refine inv_clampPos { s with current_chunk := p } hc hl htc ?_
  show 1 ≤ s.total_chunks
  omega

lemma inv_processCommand {s : Chunker} {cmd : Command} {fuel : Nat} {b : Bool}
    {s' : Chunker} (hInv : Inv s) (h : processCommand s cmd fuel = some (b, s')) :
    Inv s' := by
  obtain ⟨hc, hl, htc, hp1, hp2⟩ := hInv
  cases cmd with
  | emptyCmd =>
    simp only [processCommand] at h
    cases hfu : findNextUnusedChunk s fuel with
    | none => rw [hfu] at h; cases h
    | some r =>
      cases r with
      | none =>
        rw [hfu] at h
        cases h
        exact inv_clamp_update s _ ⟨hc, hl, htc, hp1, hp2⟩
      | some p =>
        rw [hfu] at h
        cases h
        exact inv_clamp_update s _ ⟨hc, hl, htc, hp1, hp2⟩
  | appendCmd extra =>
    simp only [processCommand] at h
    by_cases he : extra = []
    · rw [if_pos he] at h
      cases h
      exact ⟨hc, hl, htc, hp1, hp2⟩
    · rw [if_neg he] at h
      cases h
      refine inv_recalc _ hc ?_
      rw [List.length_append]
      omega
  | recopy =>
    simp only [processCommand] at h
    cases h
    exact inv_clampPos s hc hl htc (by omega)
  | usage => simp only [processCommand] at h; cases h; exact ⟨hc, hl, htc, hp1, hp2⟩
  | resetCmd => simp only [processCommand] at h; cases h; exact ⟨hc, hl, htc, hp1, hp2⟩
  | prevCmd =>
    simp only [processCommand] at h
    cases h
    exact inv_clamp_update s _ ⟨hc, hl, htc, hp1, hp2⟩
  | nextCmd =>
    simp only [processCommand] at h
    cases h
    exact inv_clamp_update s _ ⟨hc, hl, htc, hp1, hp2⟩
  | firstCmd =>
    simp only [processCommand] at h
    cases h
    exact inv_clamp_update s _ ⟨hc, hl, htc, hp1, hp2⟩
  | lastCmd =>
    simp only [processCommand] at h
    cases h
    exact inv_clamp_update s _ ⟨hc, hl, htc, hp1, hp2⟩
  | invertCmd =>
    simp only [processCommand] at h
    cases h
    exact inv_clamp_update s _ ⟨hc, hl, htc, hp1, hp2⟩
  | resize n =>
    simp only [processCommand] at h
    by_cases hn : 0 < n ∧ n ≤ s.text.length
    · rw [if_pos hn] at h
      cases h
      obtain ⟨a1, a2, a3, a4, a5⟩ :=
        inv_recalc { s with chunk_size := n, used_chunks := ∅ } hn.1 hl
      exact inv_clampPos _ a1 a2 a3 (by omega)
    · rw [if_neg hn] at h
      cases h
      exact ⟨hc, hl, htc, hp1, hp2⟩
  | quitCmd => simp only [processCommand] at h; cases h; exact ⟨hc, hl, htc, hp1, hp2⟩
  | goto n =>
    simp only [processCommand] at h
    by_cases hn : 1 ≤ n ∧ n ≤ s.total_chunks
    · rw [if_pos hn] at h
      cases h
      exact inv_clamp_update s _ ⟨hc, hl, htc, hp1, hp2⟩
    · rw [if_neg hn] at h
      cases h
      exact ⟨hc, hl, htc, hp1, hp2⟩
  | help => simp only [processCommand] at h; cases h; exact ⟨hc, hl, htc, hp1, hp2⟩

lemma inv_loadText {tail : Bool} {cs : Nat} {content : List Char} {s0 : Chunker}
    (hc : 0 < cs) (h : loadText tail cs content = some s0) : Inv s0 := by
  unfold loadText at h
  by_cases he : content = []
  · rw [if_pos he] at h; cases h
  · rw [if_neg he] at h
    have hlen : 0 < content.length := List.length_pos.mpr he
    obtain ⟨a1, a2, a3, a4, a5⟩ := inv_recalc
      { text := content, chunk_size := cs, tail_mode := tail, inverted := false,
        current_chunk := 1, total_chunks := 1, used_chunks := ∅ } hc hlen
    cases h
    split
    · exact ⟨a1, a2, a3, le_trans a4 a5, le_refl _⟩
    · exact ⟨a1, a2, a3, a4, a5⟩

lemma inv_applyCommands {s s' : Chunker} {cmds : List (Command × Nat)}
    (hInv : Inv s) (h : applyCommands s cmds = some s') : Inv s' := by
  induction cmds generalizing s with
  | nil =>
    unfold applyCommands at h
    cases h
    exact hInv
  | cons cf rest ih =>
    unfold applyCommands at h
    cases hpc : processCommand s cf.1 cf.2 with
    | none => rw [hpc] at h; cases h
    | some bs =>
      rw [hpc] at h
      exact ih (inv_processCommand hInv hpc) h


/-! ### Concrete states used as witnesses and counterexamples -/

/-- A 25-character buffer (the worked example of the spec). -/
def buf25 : List Char :=
  ['a','b','c','d','e','f','g','h','i','j','k','l','m','n','o','p','q','r','s','t','u','v','w','x','y']

/-- 25-character buffer, chunk size 10, tail mode: the tail-anchored example. -/
def ex25tail : Chunker :=
  { text := buf25, chunk_size := 10, tail_mode := true, inverted := false,
    current_chunk := 3, total_chunks := 3, used_chunks := ∅ }

/-- 25-character buffer, chunk size 10, head mode: the forward-anchored example. -/
def ex25head : Chunker :=
  { text := buf25, chunk_size := 10, tail_mode := false, inverted := false,
    current_chunk := 1, total_chunks := 3, used_chunks := ∅ }

/-! ### C3: chunks partition the buffer (both directions) -/

/-- C3: for every non-empty buffer and positive chunk size, in both effective
directions the chunks at positions `1..total_chunks` are substrings of the
buffer delimited by `chunkS`/`chunkE`, the first starts at offset 0, the last
ends at the buffer length, consecutive chunks are contiguous, distinct chunks
do not overlap, and the chunk lengths sum to the buffer length. -/
theorem c3_partition :
    ∀ (s : Chunker),
    0 < s.text.length → 0 < s.chunk_size →
    s.total_chunks = computeTotalChunks s.text.length s.chunk_size →
    (∀ p, 1 ≤ p → p ≤ s.total_chunks →
       getChunkAtPosition s p = substr s.text (chunkS s p) (chunkE s p - chunkS s p) ∧
       chunkS s p ≤ chunkE s p ∧ chunkE s p ≤ s.text.length) ∧
    chunkS s 1 = 0 ∧
    chunkE s s.total_chunks = s.text.length ∧
    (∀ p, 1 ≤ p → p < s.total_chunks → chunkE s p = chunkS s (p + 1)) ∧
    (∀ p q, 1 ≤ p → p < q → q ≤ s.total_chunks → chunkE s p ≤ chunkS s q) ∧
    (∑ p ∈ Finset.Icc 1 s.total_chunks, (getChunkAtPosition s p).length) = s.text.length := by
  intro s hl hc htc
  have h1 : 1 ≤ s.total_chunks := htc ▸ computeTotalChunks_pos _ _
  refine ⟨?_, ?_, ?_, ?_, ?_, ?_⟩
  · intro p hp1 hp2
    exact ⟨getChunk_eq s p hp1 hp2,
      start_le_end _ _ _ (effRev s) p hl hc htc hp1 hp2,
      end_le_len _ _ _ (effRev s) p⟩
  · exact start_one _ _ _ (effRev s) hl hc htc
  · exact end_total _ _ _ (effRev s) hl hc htc
  · intro p hp1 hp2
    exact cont _ _ _ (effRev s) p hl hc htc hp1 hp2
  · intro p q hp1 hpq hq
    exact no_overlap _ _ _ (effRev s) p q hl hc htc hp1 hpq hq
  · have hsum : (∑ p ∈ Finset.Icc 1 s.total_chunks, (getChunkAtPosition s p).length)
        = ∑ p ∈ Finset.Icc 1 s.total_chunks, (chunkE s p - chunkS s p) := by
      refine Finset.sum_congr rfl ?_
      intro x hx
      obtain ⟨hx1, hx2⟩ := Finset.mem_Icc.mp hx
      exact getChunk_length s x hl hc htc hx1 hx2
    rw [hsum]
    have htel := telescope_sum (chunkE s) (chunkS s) s.total_chunks
      (start_one _ _ _ (effRev s) hl hc htc)
      (fun p a b => cont _ _ _ (effRev s) p hl hc htc a b)
      (fun p a b => start_le_end _ _ _ (effRev s) p hl hc htc a b)
      s.total_chunks h1 le_rfl
    rw [htel]
    exact end_total _ _ _ (effRev s) hl hc htc

/-- Witness for C3 at the tail-anchored 25/10 example. -/
theorem c3_partition_witness :
    (∑ p ∈ Finset.Icc 1 ex25tail.total_chunks, (getChunkAtPosition ex25tail p).length)
      = ex25tail.text.length :=
  (c3_partition ex25tail (by decide) (by decide) (by decide)).2.2.2.2.2

/-! ### C5: forward-anchored concatenation reconstructs the buffer -/

/-- C5: for every non-empty buffer and positive chunk size, when the effective
direction is forward-anchored, concatenating
`getChunkAtPosition 1 .. total_chunks` in order yields the original buffer. -/
theorem c5_roundtrip :
    ∀ (s : Chunker),
    0 < s.text.length → 0 < s.chunk_size →
    s.total_chunks = computeTotalChunks s.text.length s.chunk_size →
    effRev s = false →
    concatChunksUpTo s s.total_chunks = s.text := by
  intro s hl hc htc _hrev
  have h1 : 1 ≤ s.total_chunks := htc ▸ computeTotalChunks_pos _ _
  rw [concat_take s hl hc htc s.total_chunks h1 le_rfl]
  unfold chunkE
  rw [end_total _ _ _ (effRev s) hl hc htc]
  exact List.take_length s.text

/-- Witness for C5 at the forward-anchored 25/10 example. -/
theorem c5_roundtrip_witness : concatChunksUpTo ex25head 3 = buf25 :=
  c5_roundtrip ex25head (by decide) (by decide) (by decide) (by decide)

/-! ### C10: the reverse-anchored end offset never underflows -/

/-- C10: for a non-empty buffer, positive chunk size,
`tc = computeTotalChunks len cs` and any position in `[1, tc]`, the `size_t`
subtraction `len - (tc - pos) * cs` in the reverse-anchored branch cannot
underflow, and the resulting offsets satisfy `start ≤ end ≤ len`. -/
theorem c10_no_underflow :
    ∀ (len cs tc pos : Nat),
    0 < len → 0 < cs → tc = computeTotalChunks len cs →
    1 ≤ pos → pos ≤ tc →
    (tc - pos) * cs ≤ len ∧
    chunkStartPos len cs tc true pos ≤ chunkEndPos len cs tc true pos ∧
    chunkEndPos len cs tc true pos ≤ len := by
  intro len cs tc pos hl hc htc hp1 _hp2
  exact ⟨le_of_lt (sub_mul_lt len cs tc pos hl hc htc hp1),
    rev_start_le_end len cs tc pos,
    rev_end_le_len len cs tc pos⟩

/-- Witness for C10 at the 25/10 example, position 1. -/
theorem c10_no_underflow_witness :
    (3 - 1) * 10 ≤ 25 ∧
    chunkStartPos 25 10 3 true 1 ≤ chunkEndPos 25 10 3 true 1 ∧
    chunkEndPos 25 10 3 true 1 ≤ 25 :=
  c10_no_underflow 25 10 3 1 (by decide) (by decide) (by decide) (by decide) (by decide)


/-! ### C4: the reverse-anchored boundary formula -/

/-- C4: in the reverse-anchored branch, for every position in range the end
offset is `len - (tc - pos) * cs`, the start offset is the truncated
subtraction `end - cs` (i.e. `max(0, end - cs)`), the chunk is the
corresponding substring, every chunk after the first has length exactly
`chunk_size` and the first chunk is at most `chunk_size` long; concretely the
25-character buffer with chunk size 10 yields lengths `[5,10,10]`
tail-anchored and `[10,10,5]` forward-anchored. -/
theorem c4_reverse_anchored :
    (∀ (s : Chunker) (pos : Nat),
      0 < s.text.length → 0 < s.chunk_size →
      s.total_chunks = computeTotalChunks s.text.length s.chunk_size →
      effRev s = true → 1 ≤ pos → pos ≤ s.total_chunks →
      chunkE s pos = s.text.length - (s.total_chunks - pos) * s.chunk_size ∧
      chunkS s pos = chunkE s pos - s.chunk_size ∧
      getChunkAtPosition s pos = substr s.text (chunkS s pos) (chunkE s pos - chunkS s pos) ∧
      (2 ≤ pos → (getChunkAtPosition s pos).length = s.chunk_size) ∧
      (getChunkAtPosition s 1).length ≤ s.chunk_size) ∧
    (List.range 3).map (fun i => (getChunkAtPosition ex25tail (i + 1)).length) = [5, 10, 10] ∧
    (List.range 3).map (fun i => (getChunkAtPosition ex25head (i + 1)).length) = [10, 10, 5] := by
  refine ⟨?_, by decide, by decide⟩
  intro s pos hl hc htc hrev hp1 hp2
  have h1 : 1 ≤ s.total_chunks := htc ▸ computeTotalChunks_pos _ _
  have hE : chunkE s pos = s.text.length - (s.total_chunks - pos) * s.chunk_size := by
    unfold chunkE
    rw [hrev, rev_end_def]
  have hS : chunkS s pos = chunkE s pos - s.chunk_size := by
    unfold chunkS chunkE
    rw [hrev, rev_start_eq]
  refine ⟨hE, hS, getChunk_eq s pos hp1 hp2, ?_, ?_⟩
  · intro hp2'
    rw [getChunk_length s pos hl hc htc hp1 hp2]
    unfold chunkE chunkS
    rw [hrev]
    exact rev_full_len s.text.length s.chunk_size s.total_chunks pos hl hc htc hp2' hp2
  · rw [getChunk_length s 1 hl hc htc (by omega) h1]
    have hS1 : chunkS s 1 = 0 := by
      unfold chunkS
      rw [hrev]
      exact rev_start_one _ _ _ hl hc htc
    have hE1 : chunkE s 1 ≤ s.chunk_size := by
      unfold chunkE
      rw [hrev]
      exact rev_end_one_le_cs _ _ _ hl hc htc
    omega

/-- Witness for C4: chunk 2 of the tail-anchored 25/10 example is full-size. -/
theorem c4_reverse_anchored_witness :
    (getChunkAtPosition ex25tail 2).length = ex25tail.chunk_size :=
  (c4_reverse_anchored.1 ex25tail 2 (by decide) (by decide) (by decide) (by decide)
    (by decide) (by decide)).2.2.2.1 (by decide)

/-! ### C6: Invert is an involution -/

/-- The `I` branch of `processCommand` (xcli.cpp lines 436-439) in closed
form: once the position invariant holds, the final bounds check is the
identity. -/
lemma processCommand_invert (s : Chunker) (fuel : Nat) (h1 : 1 ≤ s.current_chunk)
    (h2 : s.current_chunk ≤ s.total_chunks) :
    processCommand s Command.invertCmd fuel =
      some (true, { s with inverted := !s.inverted, current_chunk := s.total_chunks - s.current_chunk + 1 }) := by
  have hid := clampPos_id
    { s with inverted := !s.inverted, current_chunk := s.total_chunks - s.current_chunk + 1 }
    (by show 1 ≤ s.total_chunks - s.current_chunk + 1; omega)
    (by show s.total_chunks - s.current_chunk + 1 ≤ s.total_chunks; omega)
  simp only [processCommand, hid]

/-- C6: applying the Invert command twice restores both the position and the
`inverted` flag (hence the effective direction). -/
theorem c6_invert_involution :
    ∀ (s : Chunker) (fuel1 fuel2 : Nat),
    1 ≤ s.current_chunk → s.current_chunk ≤ s.total_chunks →
    ∃ s1 s2,
      processCommand s Command.invertCmd fuel1 = some (true, s1) ∧
      processCommand s1 Command.invertCmd fuel2 = some (true, s2) ∧
      s2.current_chunk = s.current_chunk ∧ s2.inverted = s.inverted ∧
      effRev s2 = effRev s := by
  intro s fuel1 fuel2 hp1 hp2
  have e1 := processCommand_invert s fuel1 hp1 hp2
  have e2 := processCommand_invert
    { s with inverted := !s.inverted, current_chunk := s.total_chunks - s.current_chunk + 1 } fuel2
    (by show 1 ≤ s.total_chunks - s.current_chunk + 1; omega)
    (by show s.total_chunks - s.current_chunk + 1 ≤ s.total_chunks; omega)
  refine ⟨_, _, e1, e2, ?_, ?_, ?_⟩
  · show s.total_chunks - (s.total_chunks - s.current_chunk + 1) + 1 = s.current_chunk
    omega
  · show (!!s.inverted) = s.inverted
    exact Bool.not_not s.inverted
  · show Bool.xor s.tail_mode (!!s.inverted) = Bool.xor s.tail_mode s.inverted
    rw [Bool.not_not]

/-- Witness for C6 at the tail-anchored 25/10 example. -/
theorem c6_invert_involution_witness :
    ∃ s1 s2,
      processCommand ex25tail Command.invertCmd 0 = some (true, s1) ∧
      processCommand s1 Command.invertCmd 0 = some (true, s2) ∧
      s2.current_chunk = ex25tail.current_chunk ∧ s2.inverted = ex25tail.inverted ∧
      effRev s2 = effRev ex25tail :=
  c6_invert_involution ex25tail 0 0 (by decide) (by decide)

/-! ### C7: resize validation and effect -/

/-- C7: `$n` fails (leaving the whole state unchanged) unless
`0 < n ≤ len(buffer)`; on success it sets `chunk_size := n`, clears the
consumed set, keeps the buffer and mode flags, and recomputes `total_chunks`
and the clamped position. -/
theorem c7_resize :
    ∀ (s : Chunker) (n fuel : Nat),
    (¬(0 < n ∧ n ≤ s.text.length) →
       processCommand s (Command.resize n) fuel = some (true, s)) ∧
    ((0 < n ∧ n ≤ s.text.length) →
       ∃ s', processCommand s (Command.resize n) fuel = some (true, s') ∧
         s'.chunk_size = n ∧ s'.used_chunks = ∅ ∧ s'.text = s.text ∧
         s'.tail_mode = s.tail_mode ∧ s'.inverted = s.inverted ∧
         s'.total_chunks = computeTotalChunks s.text.length n ∧
         1 ≤ s'.current_chunk ∧ s'.current_chunk ≤ s'.total_chunks) := by
  intro s n fuel
  constructor
  · intro hn
    simp only [processCommand]
    rw [if_neg hn]
  · intro hn
    obtain ⟨b1, b2⟩ := clamp2_bounds
      (recalculateChunks { s with chunk_size := n, used_chunks := ∅ }).current_chunk
      (recalculateChunks { s with chunk_size := n, used_chunks := ∅ }).total_chunks
      (computeTotalChunks_pos s.text.length n)
    refine ⟨clampPos (recalculateChunks { s with chunk_size := n, used_chunks := ∅ }),
      ?_, rfl, rfl, rfl, rfl, rfl, rfl, b1, b2⟩
    simp only [processCommand]
    rw [if_pos hn]

/-- Witness for C7: `$100` on the 25-character buffer is rejected with the
state unchanged, `$25` succeeds. -/
theorem c7_resize_witness :
    processCommand ex25tail (Command.resize 100) 0 = some (true, ex25tail) ∧
    ∃ s', processCommand ex25tail (Command.resize 25) 0 = some (true, s') ∧
      s'.chunk_size = 25 ∧ s'.used_chunks = ∅ ∧ s'.text = ex25tail.text ∧
      s'.tail_mode = ex25tail.tail_mode ∧ s'.inverted = ex25tail.inverted ∧
      s'.total_chunks = computeTotalChunks ex25tail.text.length 25 ∧
      1 ≤ s'.current_chunk ∧ s'.current_chunk ≤ s'.total_chunks :=
  ⟨(c7_resize ex25tail 100 0).1 (by decide), (c7_resize ex25tail 25 0).2 (by decide)⟩


/-! ### C8: the position invariant across whole sessions -/

lemma clampPos_update_bounds (s : Chunker) (p : Nat) (h : 1 ≤ s.total_chunks) :
    1 ≤ (clampPos { s with current_chunk := p }).current_chunk ∧
    (clampPos { s with current_chunk := p }).current_chunk ≤
      (clampPos { s with current_chunk := p }).total_chunks := by
  obtain ⟨b1, b2⟩ := clamp2_bounds p s.total_chunks h
  exact ⟨b1, b2⟩

/-- C8: after a successful load followed by any command sequence, the position
is an integer in `[1, total_chunks]` and `total_chunks` is
`ceil(len/chunk_size)` with a minimum of 1; moreover `Next` and `Prev` at the
respective traversal boundaries clamp the position (returning normally with
the position unchanged) rather than erroring. -/
theorem c8_position_invariant :
    ∀ (tail : Bool) (cs : Nat) (content : List Char) (s0 s' : Chunker)
      (cmds : List (Command × Nat)),
    0 < cs →
    loadText tail cs content = some s0 →
    applyCommands s0 cmds = some s' →
    (1 ≤ s'.current_chunk ∧ s'.current_chunk ≤ s'.total_chunks ∧
     s'.total_chunks = max 1 ((s'.text.length + s'.chunk_size - 1) / s'.chunk_size)) ∧
    (∀ fuel, ∃ s2, processCommand s' Command.nextCmd fuel = some (true, s2) ∧
       1 ≤ s2.current_chunk ∧ s2.current_chunk ≤ s2.total_chunks ∧
       (isAtFinalChunk s' = true → s2.current_chunk = s'.current_chunk)) ∧
    (∀ fuel, ∃ s2, processCommand s' Command.prevCmd fuel = some (true, s2) ∧
       1 ≤ s2.current_chunk ∧ s2.current_chunk ≤ s2.total_chunks ∧
       ((effRev s' = false ∧ s'.current_chunk = 1) ∨
        (effRev s' = true ∧ s'.current_chunk = s'.total_chunks) →
          s2.current_chunk = s'.current_chunk)) := by
  intro tail cs content s0 s' cmds hcs hload happly
  obtain ⟨hc, hl, htc, hp1, hp2⟩ := inv_applyCommands (inv_loadText hcs hload) happly
  have h1 : 1 ≤ s'.total_chunks := by omega
  refine ⟨⟨hp1, hp2, by rw [htc]; exact computeTotalChunks_eq_max _ _⟩, ?_, ?_⟩
  · intro fuel
    obtain ⟨b1, b2⟩ := clampPos_update_bounds s' (scanStep s' s'.current_chunk) h1
    refine ⟨_, rfl, b1, b2, ?_⟩
    intro hfin
    show clamp2 (scanStep s' s'.current_chunk) s'.total_chunks = s'.current_chunk
    unfold isAtFinalChunk at hfin
    unfold scanStep
    cases heff : effRev s'
    · rw [heff] at hfin
      rw [if_neg (by decide : ¬((false : Bool) = true))] at hfin ⊢
      have hcc : s'.current_chunk = s'.total_chunks := by simpa using hfin
      unfold clamp2
      split_ifs <;> omega
    · rw [heff] at hfin
      rw [if_pos (rfl : (true : Bool) = true)] at hfin ⊢
      have hcc : s'.current_chunk = 1 := by simpa using hfin
      unfold clamp2
      split_ifs <;> omega
  · intro fuel
    obtain ⟨b1, b2⟩ := clampPos_update_bounds s'
      (if effRev s' then min s'.total_chunks (s'.current_chunk + 1)
       else max 1 (s'.current_chunk - 1)) h1
    refine ⟨_, rfl, b1, b2, ?_⟩
    intro hfirst
    show clamp2
      (if effRev s' then min s'.total_chunks (s'.current_chunk + 1)
       else max 1 (s'.current_chunk - 1)) s'.total_chunks = s'.current_chunk
    rcases hfirst with ⟨heff, hcc⟩ | ⟨heff, hcc⟩
    · rw [heff, if_neg (by decide : ¬((false : Bool) = true))]
      unfold clamp2
      split_ifs <;> omega
    · rw [heff, if_pos (rfl : (true : Bool) = true)]
      unfold clamp2
      split_ifs <;> omega

/-- State after loading "abc" with chunk size 2 in head mode. -/
def c8s0 : Chunker :=
  { text := ['a','b','c'], chunk_size := 2, tail_mode := false, inverted := false,
    current_chunk := 1, total_chunks := 2, used_chunks := ∅ }

/-- State after Next, Invert, resize to 1 and goto 3 from `c8s0`. -/
def c8sf : Chunker :=
  { text := ['a','b','c'], chunk_size := 1, tail_mode := false, inverted := true,
    current_chunk := 3, total_chunks := 3, used_chunks := ∅ }

/-- Witness for C8: load "abc" with chunk size 2 in head mode, then Next,
Invert, resize to 1 and goto 3. -/
theorem c8_position_invariant_witness :
    ∃ s0 s', loadText false 2 ['a','b','c'] = some s0 ∧
      applyCommands s0
        [(Command.nextCmd, 0), (Command.invertCmd, 0), (Command.resize 1, 0),
         (Command.goto 3, 0)] = some s' ∧
      1 ≤ s'.current_chunk ∧ s'.current_chunk ≤ s'.total_chunks ∧
      s'.total_chunks = max 1 ((s'.text.length + s'.chunk_size - 1) / s'.chunk_size) :=
  ⟨c8s0, c8sf, by decide, by decide,
    (c8_position_invariant false 2 ['a','b','c'] c8s0 c8sf
      [(Command.nextCmd, 0), (Command.invertCmd, 0), (Command.resize 1, 0),
       (Command.goto 3, 0)] (by decide) (by decide) (by decide)).1⟩

/-! ### C9: hasUnusedChunks and duplicate chunk contents -/

/-- C9 counterexample: a session reaching a state where the buffer holds
identical chunks at two different positions yet `hasUnusedChunks` is `false`
and the run loop's auto-exit test fires.  Load "aabba" with chunk size 2 in
head mode (the loop's automatic copy consumes "aa"), goto 3 (consumes "a"),
goto 2 (consumes "bb"), append the line "a" (the buffer becomes "aabbaa\n"
with 4 chunks but `appendText` does not clear `used_chunks`), and let the
loop's next automatic copy consume "\n".  Positions 1 and 3 now both hold
"aa", but the stale content "a" pads the consumed set to
`total_chunks = 4`, so `hasUnusedChunks` returns `false` and
`isAtFinalChunk && !hasUnusedChunks` (xcli.cpp lines 503-507) is `true`. -/
theorem c9_counterexample :
    ∃ s0 s1 s2 s3 s4,
      loadText false 2 ['a','a','b','b','a'] = some s0 ∧
      runStep s0 (Command.goto 3) 8 = some s1 ∧
      runStep s1 (Command.goto 2) 8 = some s2 ∧
      runStep s2 (Command.appendCmd ['a', '\n']) 8 = some s3 ∧
      copyToClipboard s3 8 = some s4 ∧
      getChunkAtPosition s4 1 = getChunkAtPosition s4 3 ∧
      (1 : Nat) ≠ 3 ∧ 1 ≤ s4.total_chunks ∧ 3 ≤ s4.total_chunks ∧
      hasUnusedChunks s4 = false ∧
      (isAtFinalChunk s4 && !hasUnusedChunks s4) = true :=
  ⟨_, _, _, _, _, rfl, rfl, rfl, rfl, rfl, by decide, by decide, by decide, by decide,
    by decide, by decide⟩

/-- C9 amended: `hasUnusedChunks` is exactly the test
`|used_chunks| < total_chunks` on the set of distinct consumed contents.
The claimed consequence holds only under the additional hypothesis that the
consumed set contains nothing but current chunk contents (true of sessions
with no append since the last resize/reset, since `markChunkAsUsed` only
inserts chunk contents and resize clears the set): then two distinct
positions with identical content force `hasUnusedChunks = true` and the
auto-exit test `isAtFinalChunk && !hasUnusedChunks` of the run loop
(xcli.cpp lines 503-507) to `false`.  Without that hypothesis the
consequence fails: `appendText` leaves stale contents in the consumed set
(see the counterexample above). -/
theorem c9_hasUnused :
    ∀ (s : Chunker) (i j : Nat),
    (hasUnusedChunks s = true ↔ s.used_chunks.card < s.total_chunks) ∧
    (s.used_chunks ⊆ (Finset.Icc 1 s.total_chunks).image (getChunkAtPosition s) →
     1 ≤ i → i ≤ s.total_chunks → 1 ≤ j → j ≤ s.total_chunks → i ≠ j →
     getChunkAtPosition s i = getChunkAtPosition s j →
     hasUnusedChunks s = true ∧ (isAtFinalChunk s && !hasUnusedChunks s) = false) := by
  intro s i j
  constructor
  · unfold hasUnusedChunks
    exact decide_eq_true_iff
  · intro hsub hi1 hi2 hj1 hj2 hij heq
    have himem : i ∈ Finset.Icc 1 s.total_chunks := Finset.mem_Icc.mpr ⟨hi1, hi2⟩
    have hjmem : j ∈ Finset.Icc 1 s.total_chunks := Finset.mem_Icc.mpr ⟨hj1, hj2⟩
    have hsub2 : s.used_chunks ⊆
        ((Finset.Icc 1 s.total_chunks).erase j).image (getChunkAtPosition s) := by
      intro x hx
      obtain ⟨k, hk, hfk⟩ := Finset.mem_image.mp (hsub hx)
      by_cases hkj : k = j
      · refine Finset.mem_image.mpr ⟨i, Finset.mem_erase.mpr ⟨hij, himem⟩, ?_⟩
        rw [heq, ← hkj]
        exact hfk
      · exact Finset.mem_image.mpr ⟨k, Finset.mem_erase.mpr ⟨hkj, hk⟩, hfk⟩
    have hcard1 := Finset.card_le_card hsub2
    have hcard2 : (((Finset.Icc 1 s.total_chunks).erase j).image
        (getChunkAtPosition s)).card ≤ ((Finset.Icc 1 s.total_chunks).erase j).card :=
      Finset.card_image_le
    have hcard3 : ((Finset.Icc 1 s.total_chunks).erase j).card =
        (Finset.Icc 1 s.total_chunks).card - 1 := Finset.card_erase_of_mem hjmem
    have hicc : (Finset.Icc 1 s.total_chunks).card = s.total_chunks := by
      rw [Nat.card_Icc]
      omega
    have hlt : s.used_chunks.card < s.total_chunks := by omega
    refine ⟨?_, ?_⟩
    · unfold hasUnusedChunks
      exact decide_eq_true hlt
    · unfold hasUnusedChunks
      rw [decide_eq_true hlt]
      simp

/-- Buffer "abab" with chunk size 2: positions 1 and 2 hold identical content. -/
def exdup : Chunker :=
  { text := ['a','b','a','b'], chunk_size := 2, tail_mode := false, inverted := false,
    current_chunk := 1, total_chunks := 2, used_chunks := {['a','b']} }

/-- Witness for C9 on the duplicate-content buffer "abab". -/
theorem c9_hasUnused_witness :
    hasUnusedChunks exdup = true ∧ (isAtFinalChunk exdup && !hasUnusedChunks exdup) = false :=
  (c9_hasUnused exdup 1 2).2 (by decide) (by decide) (by decide) (by decide) (by decide)
    (by decide) (by decide)


/-! ### C1: what Invert preserves -/

/-- Buffer "ab" with chunk size 1, head mode, position 1. -/
def c1state : Chunker :=
  { text := ['a','b'], chunk_size := 1, tail_mode := false, inverted := false,
    current_chunk := 1, total_chunks := 2, used_chunks := ∅ }

/-- C1 counterexample: on "ab" with chunk size 1 at position 1 the current
chunk is "a"; after Invert the position is the mirror 2 and the current chunk
under the new effective direction is "b" — the physical chunk content is not
preserved. -/
theorem c1_invert_counterexample :
    getChunkAtPosition c1state c1state.current_chunk = ['a'] ∧
    (processCommand c1state Command.invertCmd 0).map
      (fun p => (p.2.inverted, p.2.current_chunk, getChunkAtPosition p.2 p.2.current_chunk))
      = some (true, 2, ['b']) ∧
    (['b'] : List Char) ≠ (['a'] : List Char) :=
  ⟨by decide, by decide, by decide⟩

/-- Start and end offsets of the single chunk when `total_chunks = 1`. -/
lemma chunk_single (len cs : Nat) (rev : Bool) (hlc : len ≤ cs) :
    chunkStartPos len cs 1 rev 1 = 0 ∧ chunkEndPos len cs 1 rev 1 = len := by
  cases rev
  · constructor
    · simp [chunkStartPos]
    · simp [chunkEndPos]
      omega
  · constructor
    · simp only [chunkStartPos]
      rw [if_pos trivial, if_neg (by omega)]
    · simp [chunkEndPos]

/-- C1 amended: Invert flips `inverted` and mirrors the position
(`total_chunks - pos + 1`).  What is preserved is the traversal ordinal (how
many steps the current chunk lies from the traversal's start under the
respective effective direction), not the physical chunk content; the content
is guaranteed to survive only in degenerate cases such as a single chunk. -/
theorem c1_invert_ordinal :
    ∀ (s : Chunker) (fuel : Nat),
    0 < s.text.length → 0 < s.chunk_size →
    s.total_chunks = computeTotalChunks s.text.length s.chunk_size →
    1 ≤ s.current_chunk → s.current_chunk ≤ s.total_chunks →
    ∃ s', processCommand s Command.invertCmd fuel = some (true, s') ∧
      s'.inverted = !s.inverted ∧
      effRev s' = !effRev s ∧
      s'.current_chunk = s.total_chunks - s.current_chunk + 1 ∧
      traversalOrdinal (effRev s') s'.total_chunks s'.current_chunk
        = traversalOrdinal (effRev s) s.total_chunks s.current_chunk ∧
      (s.total_chunks = 1 →
        getChunkAtPosition s' s'.current_chunk = getChunkAtPosition s s.current_chunk) := by
  intro s fuel hl hc htc hp1 hp2
  refine ⟨_, processCommand_invert s fuel hp1 hp2, rfl, ?_, rfl, ?_, ?_⟩
  · show Bool.xor s.tail_mode (!s.inverted) = !(Bool.xor s.tail_mode s.inverted)
    cases s.tail_mode <;> cases s.inverted <;> rfl
  · show traversalOrdinal (Bool.xor s.tail_mode (!s.inverted)) s.total_chunks
      (s.total_chunks - s.current_chunk + 1)
      = traversalOrdinal (Bool.xor s.tail_mode s.inverted) s.total_chunks s.current_chunk
    unfold traversalOrdinal
    cases s.tail_mode <;> cases s.inverted <;> simp <;> omega
  · intro htc1
    have hcc : s.current_chunk = 1 := by omega
    have hdiv : (s.text.length + s.chunk_size - 1) / s.chunk_size = 1 := by
      rw [← computeTotalChunks_eq_div _ _ hl hc, ← htc, htc1]
    have hlt : s.text.length + s.chunk_size - 1 < 2 * s.chunk_size :=
      (Nat.div_lt_iff_lt_mul hc).mp (by omega)
    have hlc : s.text.length ≤ s.chunk_size := by omega
    have hcur : (({ s with inverted := !s.inverted, current_chunk := s.total_chunks - s.current_chunk + 1 } : Chunker)).current_chunk = 1 := by
      show s.total_chunks - s.current_chunk + 1 = 1
      omega
    rw [hcur, hcc]
    rw [getChunk_eq _ 1 le_rfl (by show 1 ≤ s.total_chunks; omega),
        getChunk_eq s 1 le_rfl (by omega)]
    have e1 := chunk_single s.text.length s.chunk_size
      (Bool.xor s.tail_mode (!s.inverted)) hlc
    have e2 := chunk_single s.text.length s.chunk_size (Bool.xor s.tail_mode s.inverted) hlc
    show substr s.text
        (chunkStartPos s.text.length s.chunk_size s.total_chunks
          (Bool.xor s.tail_mode (!s.inverted)) 1)
        (chunkEndPos s.text.length s.chunk_size s.total_chunks
          (Bool.xor s.tail_mode (!s.inverted)) 1
         - chunkStartPos s.text.length s.chunk_size s.total_chunks
            (Bool.xor s.tail_mode (!s.inverted)) 1)
      = substr s.text
        (chunkStartPos s.text.length s.chunk_size s.total_chunks
          (Bool.xor s.tail_mode s.inverted) 1)
        (chunkEndPos s.text.length s.chunk_size s.total_chunks
          (Bool.xor s.tail_mode s.inverted) 1
         - chunkStartPos s.text.length s.chunk_size s.total_chunks
            (Bool.xor s.tail_mode s.inverted) 1)
    rw [htc1, e1.1, e1.2, e2.1, e2.2]

/-- Witness for the amended C1 on "ab" with chunk size 1. -/
theorem c1_invert_ordinal_witness :
    ∃ s', processCommand c1state Command.invertCmd 0 = some (true, s') ∧
      s'.inverted = !c1state.inverted ∧
      effRev s' = !effRev c1state ∧
      s'.current_chunk = c1state.total_chunks - c1state.current_chunk + 1 ∧
      traversalOrdinal (effRev s') s'.total_chunks s'.current_chunk
        = traversalOrdinal (effRev c1state) c1state.total_chunks c1state.current_chunk ∧
      (c1state.total_chunks = 1 →
        getChunkAtPosition s' s'.current_chunk
          = getChunkAtPosition c1state c1state.current_chunk) :=
  c1_invert_ordinal c1state 0 (by decide) (by decide) (by decide) (by decide) (by decide)

/-! ### C2: the dedup scan does not wrap and can fail to terminate -/

/-- Buffer "abc" with chunk size 1, head mode, position 1, all three chunk
contents already consumed. -/
def c2state : Chunker :=
  { text := ['a','b','c'], chunk_size := 1, tail_mode := false, inverted := false,
    current_chunk := 1, total_chunks := 3,
    used_chunks := {['a'], ['b'], ['c']} }

lemma c2_stuck_at3 : ∀ fuel, findNextUnusedChunkFuel c2state 1 3 fuel = none := by
  intro fuel
  induction fuel with
  | zero => rfl
  | succ n ih =>
    show (if isChunkUsed c2state (getChunkAtPosition c2state 3) = false
          then some (some 3)
          else if scanStep c2state 3 = 1 then some none
          else findNextUnusedChunkFuel c2state 1 (scanStep c2state 3) n) = none
    rw [show isChunkUsed c2state (getChunkAtPosition c2state 3) = true from by decide]
    rw [if_neg (by decide : ¬((true : Bool) = false))]
    rw [show scanStep c2state 3 = 3 from by decide]
    rw [if_neg (by decide : ¬(3 = 1))]
    exact ih

lemma c2_from2 : ∀ fuel, findNextUnusedChunkFuel c2state 1 2 fuel = none := by
  intro fuel
  cases fuel with
  | zero => rfl
  | succ n =>
    show (if isChunkUsed c2state (getChunkAtPosition c2state 2) = false
          then some (some 2)
          else if scanStep c2state 2 = 1 then some none
          else findNextUnusedChunkFuel c2state 1 (scanStep c2state 2) n) = none
    rw [show isChunkUsed c2state (getChunkAtPosition c2state 2) = true from by decide]
    rw [if_neg (by decide : ¬((true : Bool) = false))]
    rw [show scanStep c2state 2 = 3 from by decide]
    rw [if_neg (by decide : ¬(3 = 1))]
    exact c2_stuck_at3 n

/-- C2: on "abc" with chunk size 1 in head mode at position 1 with all three
chunk contents consumed, every chunk in `[1, total_chunks]` is consumed, yet
`findNextUnusedChunk` never exits (for any iteration bound): the step clamps
at the boundary instead of wrapping, so the `current == start` wrap test
never fires and the loop re-checks position 3 forever instead of returning
`NoneFound`. -/
theorem c2_scan_diverges :
    (∀ p, 1 ≤ p → p ≤ c2state.total_chunks →
       getChunkAtPosition c2state p ∈ c2state.used_chunks) ∧
    ∀ fuel, findNextUnusedChunk c2state fuel = none := by
  constructor
  · intro p h1 h2
    have h2' : p ≤ 3 := h2
    interval_cases p <;> decide
  · intro fuel
    cases fuel with
    | zero => rfl
    | succ n =>
      show (if isChunkUsed c2state (getChunkAtPosition c2state 1) = false
            then some (some 1)
            else if scanStep c2state 1 = 1 then some none
            else findNextUnusedChunkFuel c2state 1 (scanStep c2state 1) n) = none
      rw [show isChunkUsed c2state (getChunkAtPosition c2state 1) = true from by decide]
      rw [if_neg (by decide : ¬((true : Bool) = false))]
      rw [show scanStep c2state 1 = 2 from by decide]
      rw [if_neg (by decide : ¬(2 = 1))]
      exact c2_from2 n

end TextChunker
